import Mathlib

/-!
Verification of the git-delta-tree extension core (src/extension.ts):
branch resolution (`detectMainBranch`), change-set loading
(`loadChangedFiles`), and tree materialization
(`addFileToTree` / `buildTreeFromChangedFiles` /
`buildFlatListFromChangedFiles` / `buildFullWorkspaceTree` /
`getChildren`), shallowly embedded as pure Lean functions.

JavaScript string primitives used by the source (`String.prototype.split`
with a one-character separator, `Array.prototype.join('/')`,
`String.prototype.trim`) are modelled at the character-list level so that
every definition is executable and reducible by the kernel.
-/

namespace GitDeltaTree

/-! ## Character-level models of the JS string primitives -/

/-- Model of JS `s.split(sep)` for a one-character separator, on character
lists: returns the first segment and the remaining segments. -/
def splitAux (sep : Char) : List Char → List Char × List (List Char)
  | [] => ([], [])
  | c :: cs =>
    let r := splitAux sep cs
    if c = sep then ([], r.1 :: r.2) else (c :: r.1, r.2)

/-- All segments of JS `s.split(sep)`, on character lists. Always non-empty;
`split '' = [""]` just as in JS. -/
def splitChars (sep : Char) (cs : List Char) : List (List Char) :=
  (splitAux sep cs).1 :: (splitAux sep cs).2

/-- Model of JS `Array.prototype.join(sep)` for a one-character separator,
on character lists. -/
def joinChars (sep : Char) : List (List Char) → List Char
  | [] => []
  | [s] => s
  | s :: t :: rest => s ++ sep :: joinChars sep (t :: rest)

/-- JS `s.split(sep)` at the string level (one-character separator). -/
def splitCh (sep : Char) (s : String) : List String :=
  (splitChars sep s.data).map String.mk

/-- JS `parts.join('/')` at the string level. -/
def joinSlash (l : List String) : String :=
  String.mk (joinChars '/' (l.map String.data))

/-- `filePath.split('/')` as used by `addFileToTree`. -/
def splitSlash (s : String) : List String := splitCh '/' s

/-- A string containing no `'/'`: a single path segment. -/
def SlashFree (s : String) : Prop := '/' ∉ s.data

/-- Model of JS `s.trim()`. -/
def strTrim (s : String) : String :=
  String.mk (((s.data.dropWhile Char.isWhitespace).reverse.dropWhile
    Char.isWhitespace).reverse)

/-- The last `'/'`-separated segment of a path (the final element of
`path.split('/')`). -/
def lastSeg (s : String) : String :=
  String.mk ((splitChars '/' s.data).getLastD [])

/-! ## Data model (interfaces `ChangedFile` and `TreeNode`) -/

/-- `interface ChangedFile { path: string; status: string }`. -/
structure ChangedFile where
  path : String
  status : String
deriving DecidableEq, Repr

/-- `interface TreeNode { name; path; status?; children; isFile }`.
`children` is the `Map<string, TreeNode>` as an insertion-ordered
association list; the `parent` back-reference is not modelled (it is
never read by the materialization logic). -/
inductive TreeNode where
  | mk (name : String) (path : String) (status : Option String)
      (isFile : Bool) (children : List (String × TreeNode))

def TreeNode.name : TreeNode → String
  | .mk n _ _ _ _ => n

def TreeNode.path : TreeNode → String
  | .mk _ p _ _ _ => p

def TreeNode.status : TreeNode → Option String
  | .mk _ _ st _ _ => st

def TreeNode.isFile : TreeNode → Bool
  | .mk _ _ _ f _ => f

def TreeNode.children : TreeNode → List (String × TreeNode)
  | .mk _ _ _ _ cs => cs

/-- Replace a node's children, keeping every other field (the only
mutation the source ever performs on an existing node). -/
def TreeNode.setChildren : TreeNode → List (String × TreeNode) → TreeNode
  | .mk n p st f _, cs => .mk n p st f cs

/-- JS `map.get(k)` on the association-list model. -/
def mapGet (m : List (String × TreeNode)) (k : String) : Option TreeNode :=
  match m.find? (fun e => e.1 == k) with
  | some e => some e.2
  | none => none

/-- JS `map.set(k, v)`: replace in place when the key is present,
append otherwise. -/
def mapSet (m : List (String × TreeNode)) (k : String) (v : TreeNode) :
    List (String × TreeNode) :=
  if m.any (fun e => e.1 == k) then
    m.map (fun e => if e.1 = k then (k, v) else e)
  else m ++ [(k, v)]

/-- The provider's initial `rootNode` (name `''`, path `''`, a folder). -/
def emptyRoot : TreeNode := .mk "" "" none false []

/-- A freshly created folder node (`addFileToTree`, folder loop). -/
def mkFolder (name path : String) : TreeNode := .mk name path none false []

/-- A freshly created file node (`addFileToTree` final step /
`buildFlatListFromChangedFiles`): status always set, children empty. -/
def mkFile (name path status : String) : TreeNode :=
  .mk name path (some status) true []

/-! ## Tree materialization -/

/-- The recursive core of `addFileToTree`: walk/create folder nodes for
every segment but the last (folder `path` is `parts.slice(0,i+1).join('/')`,
i.e. `joinSlash (anc ++ [p])`), then `set` a fresh file node at the last
segment. `anc` is the list of segments already consumed. -/
def insertParts (anc : List String) (fullPath status : String) :
    List String → List (String × TreeNode) → List (String × TreeNode)
  | [], m => m
  | [last], m => mapSet m last (mkFile last fullPath status)
  | p :: q :: rest, m =>
    let child := (mapGet m p).getD (mkFolder p (joinSlash (anc ++ [p])))
    mapSet m p (child.setChildren
      (insertParts (anc ++ [p]) fullPath status (q :: rest) child.children))

/-- `addFileToTree(filePath, status)`: split on `'/'` and insert. -/
def addFileToTree (root : TreeNode) (filePath status : String) : TreeNode :=
  root.setChildren
    (insertParts [] filePath status (splitSlash filePath) root.children)

/-- `buildTreeFromChangedFiles`: insert every changed file into the
(previously cleared) root. -/
def buildTreeFromChangedFiles (files : List ChangedFile) : TreeNode :=
  files.foldl (fun t f => addFileToTree t f.path f.status) emptyRoot

/-- `buildFlatListFromChangedFiles`: each record becomes a direct child of the
(previously cleared) root, keyed by its full path. -/
def buildFlatListFromChangedFiles (files : List ChangedFile) : TreeNode :=
  emptyRoot.setChildren
    (files.foldl (fun m f => mapSet m f.path (mkFile f.path f.path f.status)) [])

/-- `buildFullWorkspaceTree` (after the `git ls-tree` call succeeded):
`addFileToTree(file, '')` for every tracked file. -/
def buildFullWorkspaceTree (files : List String) : TreeNode :=
  files.foldl (fun t f => addFileToTree t f "") emptyRoot

/-! ## Read-time child ordering (`getChildren`) -/

/-- The comparator of `getChildren`: folders before files, then
`localeCompare` on names (modelled as lexicographic `≤` on strings). -/
def childOrder (a b : TreeNode) : Prop :=
  (a.isFile = false ∧ b.isFile = true) ∨ (a.isFile = b.isFile ∧ a.name ≤ b.name)

instance : DecidableRel childOrder := fun a b => by
  unfold childOrder; infer_instance

/-- `getChildren(element)`: the children's values, sorted at read time by
`childOrder` (folders first, then lexicographic by name). -/
def getChildren (n : TreeNode) : List TreeNode :=
  (n.children.map Prod.snd).insertionSort childOrder

/-! ## Change-set loading and branch detection -/

/-- The error taxonomy thrown/classified by `loadChangedFiles` and
`detectMainBranch`. -/
inductive GitError where
  | notARepo
  | noCommits
  | ambiguousRef
  | generic
deriving DecidableEq, Repr

/-- The repository as seen through the git invocations the extension makes:
each field is the outcome of one kind of `execAsync` call. -/
structure GitWorld where
  /-- `git rev-parse --git-dir` succeeds. -/
  isRepo : Bool
  /-- `git rev-parse HEAD` succeeds (the repository has at least one commit). -/
  headExists : Bool
  /-- stdout of `git config --get init.defaultBranch`, `none` when the
  command fails (e.g. the setting is unset). -/
  configOutput : Option String
  /-- `git rev-parse --verify <ref>` succeeds. -/
  resolves : String → Bool
  /-- stdout of `git rev-parse --abbrev-ref HEAD`, `none` when it fails. -/
  currentBranchOutput : Option String
  /-- stdout of `git diff --name-status <branch>...HEAD`. -/
  diffOutput : String → Except GitError String
  /-- stdout of `git ls-tree -r --name-only <branch>`. -/
  lsTreeOutput : String → Except GitError String

/-- The fallback chain of `detectMainBranch` after the config candidate:
verify `master`, then `main`, then take the current branch, then the
literal `'master'`. -/
def branchFallbackChain (w : GitWorld) : String :=
  if w.resolves "master" then "master"
  else if w.resolves "main" then "main"
  else
    match w.currentBranchOutput with
    | some s => strTrim s
    | none => "master"

/-- `detectMainBranch`: throw `'No commits found'` when `HEAD` does not
resolve; otherwise accept the configured `init.defaultBranch` when it is
non-empty and resolves, and fall through to the `master`/`main`/current
branch/literal-`'master'` chain otherwise. -/
def detectMainBranch (w : GitWorld) : Except GitError String :=
  if w.headExists then
    .ok (match w.configOutput with
      | some s =>
        if strTrim s ≠ "" ∧ w.resolves (strTrim s) then strTrim s
        else branchFallbackChain w
      | none => branchFallbackChain w)
  else .error .noCommits

/-- `const [status, path] = line.split('\t')`: the first tab-separated
field is the status, the second is the path; any further fields (the
second path of a rename line) are discarded. -/
def parseLine (line : String) : ChangedFile :=
  let fields := splitCh '\t' line
  { status := fields.headD "", path := (fields.drop 1).headD "" }

/-- `stdout.trim().split('\n').filter(line => line.trim())`. -/
def outputLines (out : String) : List String :=
  (splitCh '\n' (strTrim out)).filter (fun l => strTrim l ≠ "")

/-- `loadChangedFiles`, as a function from the repository world and the
current view mode (`showTreeView`) to the rebuilt root node and the
error reported by the top-level catch (`none` on success). Every failure
is caught at the top and resolves to an empty tree. -/
def loadChangedFiles (w : GitWorld) (showTreeView : Bool) :
    TreeNode × Option GitError :=
  if w.isRepo then
    match detectMainBranch w with
    | .error e => (emptyRoot, some e)
    | .ok branch =>
      match w.diffOutput branch with
      | .error e => (emptyRoot, some e)
      | .ok out =>
        let fileLines := outputLines out
        if fileLines.isEmpty then
          if showTreeView then
            match w.lsTreeOutput branch with
            | .error _ => (emptyRoot, none)
            | .ok lsOut => (buildFullWorkspaceTree (outputLines lsOut), none)
          else (emptyRoot, none)
        else
          let changedFiles := fileLines.map parseLine
          if showTreeView then (buildTreeFromChangedFiles changedFiles, none)
          else (buildFlatListFromChangedFiles changedFiles, none)
  else (emptyRoot, some .notARepo)

/-! ## Lemmas about the split/join models -/

theorem joinChars_splitChars (sep : Char) (cs : List Char) :
    joinChars sep (splitChars sep cs) = cs := by
  induction cs with
  | nil => rfl
  | cons c cs ih =>
    simp only [splitChars, splitAux] at *
    by_cases hc : c = sep
    · simp [hc, joinChars]
      exact ih
    · simp only [if_neg hc]
      cases h2 : (splitAux sep cs).2 with
      | nil =>
        rw [h2] at ih
        simpa [joinChars] using congrArg (c :: ·) ih
      | cons t ts =>
        rw [h2] at ih
        simpa [joinChars] using congrArg (c :: ·) ih

theorem splitAux_not_mem (sep : Char) (cs : List Char) :
    sep ∉ (splitAux sep cs).1 ∧ ∀ t ∈ (splitAux sep cs).2, sep ∉ t := by
  induction cs with
  | nil => simp [splitAux]
  | cons c cs ih =>
    by_cases hc : c = sep
    · refine ⟨by simp [splitAux, if_pos hc], ?_⟩
      intro t ht
      simp only [splitAux, if_pos hc, List.mem_cons] at ht
      rcases ht with h | h
      · exact h ▸ ih.1
      · exact ih.2 t h
    · refine ⟨?_, ?_⟩
      · simp only [splitAux, if_neg hc]
        intro hmem
        rcases List.mem_cons.mp hmem with h' | h'
        · exact hc h'.symm
        · exact ih.1 h'
      · intro t ht
        simp only [splitAux, if_neg hc] at ht
        exact ih.2 t ht

theorem not_mem_of_mem_splitChars (sep : Char) (cs : List Char) :
    ∀ t ∈ splitChars sep cs, sep ∉ t := by
  intro t ht
  rcases List.mem_cons.mp ht with h | h
  · exact h ▸ (splitAux_not_mem sep cs).1
  · exact (splitAux_not_mem sep cs).2 t h

theorem splitAux_of_not_mem (sep : Char) (s : List Char) (h : sep ∉ s) :
    splitAux sep s = (s, []) := by
  induction s with
  | nil => rfl
  | cons c cs ih =>
    have hc : ¬ c = sep := fun hc => h (by simp [hc])
    have hcs : sep ∉ cs := fun hm => h (List.mem_cons.mpr (Or.inr hm))
    simp [splitAux, if_neg hc, ih hcs]

theorem splitAux_append_sep (sep : Char) (s t : List Char) (h : sep ∉ s) :
    splitAux sep (s ++ sep :: t) =
      (s, (splitAux sep t).1 :: (splitAux sep t).2) := by
  induction s with
  | nil => simp [splitAux]
  | cons c cs ih =>
    have hc : ¬ c = sep := fun hc => h (by simp [hc])
    have hcs : sep ∉ cs := fun hm => h (List.mem_cons.mpr (Or.inr hm))
    simp [splitAux, if_neg hc, ih hcs]

theorem splitChars_joinChars (sep : Char) (segs : List (List Char))
    (hne : segs ≠ []) (hfree : ∀ t ∈ segs, sep ∉ t) :
    splitChars sep (joinChars sep segs) = segs := by
  induction segs with
  | nil => exact absurd rfl hne
  | cons s rest ih =>
    cases rest with
    | nil =>
      have hs : sep ∉ s := hfree s (List.mem_cons_self _ _)
      simp [joinChars, splitChars, splitAux_of_not_mem sep s hs]
    | cons t ts =>
      have hs : sep ∉ s := hfree s (List.mem_cons_self _ _)
      have hrest : ∀ u ∈ t :: ts, sep ∉ u := fun u hu =>
        hfree u (List.mem_cons.mpr (Or.inr hu))
      have ihr := ih (by simp) hrest
      simp only [splitChars] at ihr ⊢
      have h1 : (splitAux sep (joinChars sep (t :: ts))).1 = t :=
        (List.cons.injEq _ _ _ _ ▸ ihr).1
      have h2 : (splitAux sep (joinChars sep (t :: ts))).2 = ts :=
        (List.cons.injEq _ _ _ _ ▸ ihr).2
      show _ = s :: t :: ts
      rw [show joinChars sep (s :: t :: ts) = s ++ sep :: joinChars sep (t :: ts)
        from rfl]
      rw [splitAux_append_sep sep _ _ hs, h1, h2]

/-! String-level corollaries -/

theorem data_mk (cs : List Char) : (String.mk cs).data = cs := rfl

theorem mk_data (s : String) : String.mk s.data = s := rfl

theorem map_data_map_mk (l : List (List Char)) :
    (l.map String.mk).map String.data = l := by
  induction l with
  | nil => rfl
  | cons a l ih => simp only [List.map_cons, data_mk, ih]

theorem map_mk_map_data (l : List String) :
    (l.map String.data).map String.mk = l := by
  induction l with
  | nil => rfl
  | cons a l ih => simp only [List.map_cons, mk_data, ih]

theorem joinSlash_splitSlash (s : String) : joinSlash (splitSlash s) = s := by
  simp only [joinSlash, splitSlash, splitCh]
  rw [map_data_map_mk, joinChars_splitChars]

theorem splitSlash_ne_nil (s : String) : splitSlash s ≠ [] := by
  simp [splitSlash, splitCh, splitChars]

theorem slashFree_of_mem_splitSlash (s : String) :
    ∀ t ∈ splitSlash s, SlashFree t := by
  intro t ht
  simp only [splitSlash, splitCh, List.mem_map] at ht
  obtain ⟨seg, hseg, rfl⟩ := ht
  exact not_mem_of_mem_splitChars '/' s.data seg hseg

theorem splitSlash_joinSlash (l : List String) (hne : l ≠ [])
    (hfree : ∀ t ∈ l, SlashFree t) : splitSlash (joinSlash l) = l := by
  simp only [splitSlash, splitCh, joinSlash, data_mk]
  rw [splitChars_joinChars '/' (l.map String.data)
    (by simpa using hne)
    (by
      intro t ht
      rcases List.mem_map.mp ht with ⟨u, hu, rfl⟩
      exact hfree u hu)]
  exact map_mk_map_data l

theorem joinSlash_injOn (l₁ l₂ : List String) (h₁ : l₁ ≠ []) (h₂ : l₂ ≠ [])
    (hf₁ : ∀ t ∈ l₁, SlashFree t) (hf₂ : ∀ t ∈ l₂, SlashFree t)
    (h : joinSlash l₁ = joinSlash l₂) : l₁ = l₂ := by
  have := congrArg splitSlash h
  rwa [splitSlash_joinSlash l₁ h₁ hf₁, splitSlash_joinSlash l₂ h₂ hf₂] at this

theorem lastSeg_eq_getLastD (s : String) :
    lastSeg s = (splitSlash s).getLastD "" := by
  simp only [lastSeg, splitSlash, splitCh]
  rw [show ("" : String) = String.mk [] from rfl, List.getLastD_eq_getLast?,
    List.getLastD_eq_getLast?, List.getLast?_map]
  cases (splitChars '/' s.data).getLast? <;> rfl

theorem lastSeg_joinSlash_append (l : List String) (p : String)
    (hfree : ∀ t ∈ l ++ [p], SlashFree t) :
    lastSeg (joinSlash (l ++ [p])) = p := by
  rw [lastSeg_eq_getLastD, splitSlash_joinSlash (l ++ [p]) (by simp) hfree]
  simp

/-! ## Claim C1: rename-line parsing -/

/-- **C1** (code_bug evidence). On a rename line of `git diff --name-status`
(`R<score>\told\tnew`), `loadChangedFiles`' destructuring
`const [status, path] = line.split('\t')` keeps the FIRST path (the rename's
source) and the raw scored status, not the destination path and not the bare
status character: the produced record is `{path: "old.txt", status: "R100"}`,
its path differs from the destination `"new.txt"`, and its status differs
from the bare `"R"` that the icon switch in `getTreeItem` expects. -/
theorem c1_rename_parse_keeps_first_path_and_scored_status :
    parseLine "R100\told.txt\tnew.txt" = ⟨"old.txt", "R100"⟩ ∧
    (parseLine "R100\told.txt\tnew.txt").path ≠ "new.txt" ∧
    (parseLine "R100\told.txt\tnew.txt").status ≠ "R" := by
  decide

/-! ## Claim C2: branch-resolution priority order -/

/-- Modelled from the spec: the claimed resolution priority — configured
default branch (accepted only when set, non-empty after trimming and its
reference resolves), then `master` (only if it resolves), then `main` (only
if it resolves), then the currently checked-out branch (when the query for
it succeeds), then the literal string `"master"`; a repository without
commits fails with `NoCommitsError`. -/
def resolveBranchSpec (w : GitWorld) : Except GitError String :=
  if ¬ w.headExists then .error .noCommits
  else
    let step1 : Option String :=
      match w.configOutput with
      | some s =>
        if strTrim s ≠ "" ∧ w.resolves (strTrim s) then some (strTrim s) else none
      | none => none
    let step2 : Option String := if w.resolves "master" then some "master" else none
    let step3 : Option String := if w.resolves "main" then some "main" else none
    let step4 : Option String := w.currentBranchOutput.map strTrim
    .ok ((step1.or (step2.or (step3.or step4))).getD "master")

theorem branchFallbackChain_eq (w : GitWorld) :
    branchFallbackChain w =
      (((if w.resolves "master" then some "master" else none).or
        ((if w.resolves "main" then some "main" else none).or
          (w.currentBranchOutput.map strTrim))).getD "master") := by
  unfold branchFallbackChain
  by_cases hm : w.resolves "master" <;> by_cases hn : w.resolves "main" <;>
    cases hcur : w.currentBranchOutput <;> simp [hm, hn, hcur]

/-- **C2**: `detectMainBranch` follows exactly the claimed strict priority
order, accepting each named candidate only when its reference resolves and
skipping unresolvable candidates; once `HEAD` resolves, resolution never
aborts (some branch is always returned). -/
theorem c2_branch_resolution_priority (w : GitWorld) :
    detectMainBranch w = resolveBranchSpec w ∧
    (w.headExists = true → ∃ b, detectMainBranch w = .ok b) := by
  constructor
  · unfold detectMainBranch resolveBranchSpec
    cases hh : w.headExists
    · simp
    · simp only [hh, if_true, not_true_eq_false, if_false, Bool.not_true]
      cases hc : w.configOutput with
      | none => simp [branchFallbackChain_eq]
      | some s =>
        by_cases hs : strTrim s ≠ "" ∧ w.resolves (strTrim s)
        · simp [hs]
        · simp [hs, branchFallbackChain_eq]
  · intro hh
    exact ⟨_, by unfold detectMainBranch; rw [if_pos hh]⟩

/-! ## Claim C7: read-time child ordering -/

instance : IsTotal TreeNode childOrder where
  total a b := by
    unfold childOrder
    by_cases hab : a.isFile = b.isFile
    · rcases le_total a.name b.name with h | h
      · exact Or.inl (Or.inr ⟨hab, h⟩)
      · exact Or.inr (Or.inr ⟨hab.symm, h⟩)
    · cases hA : a.isFile <;> cases hB : b.isFile <;> simp_all

instance : IsTrans TreeNode childOrder where
  trans a b c hab hbc := by
    unfold childOrder at *
    rcases hab with ⟨ha, hb⟩ | ⟨hab, hnab⟩ <;>
      rcases hbc with ⟨hb', hc⟩ | ⟨hbc, hnbc⟩
    · rw [hb] at hb'; cases hb'
    · exact Or.inl ⟨ha, hbc ▸ hb⟩
    · exact Or.inl ⟨hab ▸ hb', hc⟩
    · exact Or.inr ⟨hab.trans hbc, hnab.trans hnbc⟩

/-- **C7**: for every node, `getChildren` returns a permutation of the
stored children (which keep raw insertion order in the tree), sorted with
all folders before all files and lexicographically by name within each
kind; the ordering is produced by the read-time sort, not by the tree. -/
theorem c7_getChildren_sorted_perm (n : TreeNode) :
    List.Sorted childOrder (getChildren n) ∧
    (getChildren n).Perm (n.children.map Prod.snd) :=
  ⟨List.sorted_insertionSort childOrder (n.children.map Prod.snd),
   List.perm_insertionSort childOrder (n.children.map Prod.snd)⟩

/-! ## Lemmas about the `Map.set` model -/

theorem mapSet_any_iff (m : List (String × TreeNode)) (k : String) :
    (m.any (fun e => e.1 == k)) = true ↔ k ∈ m.map Prod.fst := by
  constructor
  · intro h
    rcases List.any_eq_true.mp h with ⟨e, he, hk⟩
    exact List.mem_map.mpr ⟨e, he, beq_iff_eq.mp hk⟩
  · intro h
    rcases List.mem_map.mp h with ⟨e, he, hk⟩
    exact List.any_eq_true.mpr ⟨e, he, beq_iff_eq.mpr hk⟩

theorem mem_mapSet (m : List (String × TreeNode)) (k : String) (v : TreeNode) :
    ∀ e ∈ mapSet m k v, e = (k, v) ∨ (e ∈ m ∧ e.1 ≠ k) := by
  intro e he
  unfold mapSet at he
  split at he
  · rcases List.mem_map.mp he with ⟨e', he', heq⟩
    by_cases hk : e'.1 = k
    · rw [if_pos hk] at heq
      exact Or.inl heq.symm
    · rw [if_neg hk] at heq
      exact Or.inr ⟨heq ▸ he', heq ▸ hk⟩
  · rcases List.mem_append.mp he with h | h
    · rename_i hany
      refine Or.inr ⟨h, fun hk => hany ?_⟩
      exact (mapSet_any_iff m k).mpr (hk ▸ List.mem_map_of_mem Prod.fst h)
    · exact Or.inl (List.mem_singleton.mp h)

theorem self_mem_mapSet (m : List (String × TreeNode)) (k : String)
    (v : TreeNode) : (k, v) ∈ mapSet m k v := by
  unfold mapSet
  split
  · rename_i hany
    rcases List.mem_map.mp ((mapSet_any_iff m k).mp hany) with ⟨e, he, hk⟩
    exact List.mem_map.mpr ⟨e, he, by rw [if_pos hk]⟩
  · simp

theorem mem_mapSet_of_ne (m : List (String × TreeNode)) (k : String)
    (v : TreeNode) {e : String × TreeNode} (he : e ∈ m) (hne : e.1 ≠ k) :
    e ∈ mapSet m k v := by
  unfold mapSet
  split
  · exact List.mem_map.mpr ⟨e, he, by rw [if_neg hne]⟩
  · exact List.mem_append_left _ he

theorem mapSet_keys (m : List (String × TreeNode)) (k : String) (v : TreeNode) :
    (mapSet m k v).map Prod.fst =
      if k ∈ m.map Prod.fst then m.map Prod.fst else m.map Prod.fst ++ [k] := by
  unfold mapSet
  by_cases hk : k ∈ m.map Prod.fst
  · rw [if_pos ((mapSet_any_iff m k).mpr hk), if_pos hk, List.map_map]
    refine List.map_congr_left ?_
    intro e _
    by_cases h : e.1 = k
    · simp [h]
    · simp [h]
  · rw [if_neg (fun h => hk ((mapSet_any_iff m k).mp h)), if_neg hk]
    simp

theorem mem_keys_mapSet (m : List (String × TreeNode)) (k p : String)
    (v : TreeNode) :
    p ∈ (mapSet m k v).map Prod.fst ↔ p = k ∨ p ∈ m.map Prod.fst := by
  rw [mapSet_keys]
  by_cases hk : k ∈ m.map Prod.fst
  · rw [if_pos hk]
    constructor
    · exact Or.inr
    · rintro (rfl | h)
      · exact hk
      · exact h
  · rw [if_neg hk]
    simp [or_comm]

theorem mapSet_keys_nodup (m : List (String × TreeNode)) (k : String)
    (v : TreeNode) (h : (m.map Prod.fst).Nodup) :
    ((mapSet m k v).map Prod.fst).Nodup := by
  rw [mapSet_keys]
  by_cases hk : k ∈ m.map Prod.fst
  · rwa [if_pos hk]
  · rw [if_neg hk]
    simp [List.nodup_append, h, hk]

/-! ## Last-record status bookkeeping -/

/-- The statuses of the records with path `p`, in list order. -/
def statusesOf (fs : List ChangedFile) (p : String) : List String :=
  (fs.filter (fun f => f.path == p)).map ChangedFile.status

/-- The status of the last record with path `p`, if any. -/
def lastStat (fs : List ChangedFile) (p : String) : Option String :=
  (statusesOf fs p).getLast?

theorem statusesOf_cons (f : ChangedFile) (fs : List ChangedFile) (p : String) :
    statusesOf (f :: fs) p =
      (if f.path = p then [f.status] else []) ++ statusesOf fs p := by
  unfold statusesOf
  by_cases h : f.path = p <;> simp [List.filter_cons, h]

theorem lastStat_cons_of_mem (f : ChangedFile) (fs : List ChangedFile)
    (p : String) (h : p ∈ fs.map ChangedFile.path) :
    lastStat (f :: fs) p = lastStat fs p := by
  have hne : statusesOf fs p ≠ [] := by
    rcases List.mem_map.mp h with ⟨g, hg, rfl⟩
    have : g.status ∈ statusesOf fs g.path :=
      List.mem_map_of_mem _ (List.mem_filter.mpr ⟨hg, by simp⟩)
    exact List.ne_nil_of_mem this
  unfold lastStat
  rw [statusesOf_cons]
  by_cases hf : f.path = p
  · rw [if_pos hf]
    exact List.getLast?_append_of_ne_nil _ hne
  · rw [if_neg hf, List.nil_append]

theorem lastStat_cons_self_of_not_mem (f : ChangedFile) (fs : List ChangedFile)
    (h : f.path ∉ fs.map ChangedFile.path) :
    lastStat (f :: fs) f.path = some f.status := by
  have hnil : statusesOf fs f.path = [] := by
    unfold statusesOf
    rw [List.filter_eq_nil_iff.mpr, List.map_nil]
    intro g hg hbeq
    exact h (List.mem_map.mpr ⟨g, hg, (beq_iff_eq.mp hbeq)⟩)
  unfold lastStat
  rw [statusesOf_cons, if_pos rfl, hnil]
  rfl

theorem lastStat_isSome_of_mem (fs : List ChangedFile) (p : String)
    (h : p ∈ fs.map ChangedFile.path) : (lastStat fs p).isSome := by
  rcases List.mem_map.mp h with ⟨g, hg, rfl⟩
  have : g.status ∈ statusesOf fs g.path :=
    List.mem_map_of_mem _ (List.mem_filter.mpr ⟨hg, by simp⟩)
  unfold lastStat
  rw [List.getLast?_isSome]
  exact List.ne_nil_of_mem this

theorem lastStat_mem (fs : List ChangedFile) (p s : String)
    (h : lastStat fs p = some s) : ∃ f ∈ fs, f.path = p ∧ f.status = s := by
  have hmem' : s ∈ (statusesOf fs p).getLast? := Option.mem_def.mpr h
  rcases List.mem_getLast?_eq_getLast hmem' with ⟨hne, heq⟩
  have hmem : s ∈ statusesOf fs p := heq ▸ List.getLast_mem hne
  rcases List.mem_map.mp hmem with ⟨g, hg, rfl⟩
  exact ⟨g, (List.mem_filter.mp hg).1, beq_iff_eq.mp (List.mem_filter.mp hg).2, rfl⟩

/-! ## Accessor simp lemmas -/

@[simp] theorem TreeNode.name_mk (n p : String) (st : Option String) (f : Bool)
    (cs : List (String × TreeNode)) : (TreeNode.mk n p st f cs).name = n := rfl

@[simp] theorem TreeNode.path_mk (n p : String) (st : Option String) (f : Bool)
    (cs : List (String × TreeNode)) : (TreeNode.mk n p st f cs).path = p := rfl

@[simp] theorem TreeNode.status_mk (n p : String) (st : Option String) (f : Bool)
    (cs : List (String × TreeNode)) : (TreeNode.mk n p st f cs).status = st := rfl

@[simp] theorem TreeNode.isFile_mk (n p : String) (st : Option String) (f : Bool)
    (cs : List (String × TreeNode)) : (TreeNode.mk n p st f cs).isFile = f := rfl

@[simp] theorem TreeNode.children_mk (n p : String) (st : Option String)
    (f : Bool) (cs : List (String × TreeNode)) :
    (TreeNode.mk n p st f cs).children = cs := rfl

@[simp] theorem TreeNode.children_setChildren (t : TreeNode)
    (cs : List (String × TreeNode)) : (t.setChildren cs).children = cs := by
  cases t; rfl

@[simp] theorem TreeNode.name_setChildren (t : TreeNode)
    (cs : List (String × TreeNode)) : (t.setChildren cs).name = t.name := by
  cases t; rfl

@[simp] theorem TreeNode.path_setChildren (t : TreeNode)
    (cs : List (String × TreeNode)) : (t.setChildren cs).path = t.path := by
  cases t; rfl

@[simp] theorem TreeNode.status_setChildren (t : TreeNode)
    (cs : List (String × TreeNode)) : (t.setChildren cs).status = t.status := by
  cases t; rfl

@[simp] theorem TreeNode.isFile_setChildren (t : TreeNode)
    (cs : List (String × TreeNode)) : (t.setChildren cs).isFile = t.isFile := by
  cases t; rfl

/-! ## Claim C5: flat-mode structure -/

theorem flatFold_entry (files : List ChangedFile) :
    ∀ (m : List (String × TreeNode)),
    ∀ e ∈ files.foldl
        (fun m f => mapSet m f.path (mkFile f.path f.path f.status)) m,
      (e.1 ∈ files.map ChangedFile.path ∧
        e.2 = mkFile e.1 e.1 ((lastStat files e.1).getD "")) ∨
      (e ∈ m ∧ e.1 ∉ files.map ChangedFile.path) := by
  induction files with
  | nil =>
    intro m e he
    exact Or.inr ⟨he, by simp⟩
  | cons f rest ih =>
    intro m e he
    simp only [List.foldl_cons] at he
    rcases ih _ e he with ⟨hmem, hshape⟩ | ⟨hmem, hnot⟩
    · refine Or.inl ⟨by simp [hmem], ?_⟩
      rw [hshape, lastStat_cons_of_mem f rest e.1 hmem]
    · rcases mem_mapSet m f.path _ e hmem with heq | ⟨hm, hne⟩
      · subst heq
        refine Or.inl ⟨by simp, ?_⟩
        simp only
        rw [lastStat_cons_self_of_not_mem f rest hnot]
        rfl
      · refine Or.inr ⟨hm, ?_⟩
        simp only [List.map_cons, List.mem_cons]
        rintro (h | h)
        · exact hne h
        · exact hnot h

theorem flatFold_keys (files : List ChangedFile) :
    ∀ (m : List (String × TreeNode)) (p : String),
    p ∈ (files.foldl
        (fun m f => mapSet m f.path (mkFile f.path f.path f.status)) m).map
        Prod.fst ↔
      p ∈ m.map Prod.fst ∨ p ∈ files.map ChangedFile.path := by
  induction files with
  | nil => intro m p; simp
  | cons f rest ih =>
    intro m p
    simp only [List.foldl_cons]
    rw [ih]
    rw [mem_keys_mapSet]
    simp only [List.map_cons, List.mem_cons]
    tauto

theorem flatFold_keys_nodup (files : List ChangedFile) :
    ∀ (m : List (String × TreeNode)), (m.map Prod.fst).Nodup →
    ((files.foldl
        (fun m f => mapSet m f.path (mkFile f.path f.path f.status)) m).map
        Prod.fst).Nodup := by
  induction files with
  | nil => intro m h; exact h
  | cons f rest ih =>
    intro m h
    simp only [List.foldl_cons]
    exact ih _ (mapSet_keys_nodup m f.path _ h)

/-- **C5**: in Flat mode the root has exactly one direct child per distinct
record path (keys are duplicate-free and are exactly the record paths);
every child is a leaf whose name, path and key are all the record's full
path, has no children of its own (so no folder node exists anywhere), and
carries the status of a record with that path. -/
theorem c5_flat_mode_structure (files : List ChangedFile) :
    ((buildFlatListFromChangedFiles files).children.map Prod.fst).Nodup ∧
    (∀ p : String,
      p ∈ (buildFlatListFromChangedFiles files).children.map Prod.fst ↔
        p ∈ files.map ChangedFile.path) ∧
    (∀ e ∈ (buildFlatListFromChangedFiles files).children,
      e.2.name = e.1 ∧ e.2.path = e.1 ∧ e.2.isFile = true ∧
        e.2.children = [] ∧
        ∃ f ∈ files, f.path = e.1 ∧ e.2.status = some f.status) := by
  unfold buildFlatListFromChangedFiles
  rw [TreeNode.children_setChildren]
  refine ⟨flatFold_keys_nodup files [] (by simp), ?_, ?_⟩
  · intro p
    rw [flatFold_keys]
    simp
  · intro e he
    rcases flatFold_entry files [] e he with ⟨hmem, hshape⟩ | ⟨hm, _⟩
    · have hsome := lastStat_isSome_of_mem files e.1 hmem
      rcases Option.isSome_iff_exists.mp hsome with ⟨s, hs⟩
      rcases lastStat_mem files e.1 s hs with ⟨f, hf, hfp, hfs⟩
      refine ⟨by rw [hshape]; rfl, by rw [hshape]; rfl, by rw [hshape]; rfl,
        by rw [hshape]; rfl, f, hf, hfp, ?_⟩
      rw [hshape]
      simp only [mkFile, TreeNode.status_mk]
      rw [hs, hfs]
      rfl
    · cases hm

/-! ## Tree traversal with ancestor chains, and the construction invariant -/

/-- All descendants of a children map, as triples
`(ancestor-name chain below the root, map key, node)`. -/
def Sub : List String → List (String × TreeNode) →
    List (List String × String × TreeNode)
  | _, [] => []
  | anc, (k, .mk n p st f cs) :: rest =>
    (anc, k, .mk n p st f cs) :: (Sub (anc ++ [n]) cs ++ Sub anc rest)

/-- The invariant every entry of a materialized hierarchical tree enjoys,
relative to the record list `fs` it was built from: keys coincide with
names, names are slash-free, the stored path joins the ancestor chain,
file nodes carry the status of the last record with their path, folder
nodes are status-less with a path that is a proper segment prefix of some
record's path, and children have duplicate-free keys. -/
inductive INV (fs : List ChangedFile) : List String → String × TreeNode → Prop where
  | intro {anc : List String} {k : String} {n : TreeNode}
      (hname : n.name = k)
      (hfree : SlashFree k)
      (hpath : n.path = joinSlash (anc ++ [k]))
      (hfile : n.isFile = true → n.status = lastStat fs n.path ∧
        n.path ∈ fs.map ChangedFile.path)
      (hfolder : n.isFile = false → n.status = none ∧
        ∃ g ∈ fs, splitSlash n.path <+: splitSlash g.path ∧
          (splitSlash n.path).length < (splitSlash g.path).length)
      (hnodup : (n.children.map Prod.fst).Nodup)
      (hch : ∀ e ∈ n.children, INV fs (anc ++ [k]) e) :
      INV fs anc (k, n)

theorem Sub_chain_prefix :
    ∀ (anc : List String) (m : List (String × TreeNode)),
    ∀ t ∈ Sub anc m, anc <+: t.1 := by
  intro anc m
  induction anc, m using Sub.induct with
  | case1 anc =>
    intro t ht
    simp [Sub] at ht
  | case2 anc k n p st f cs rest ih1 ih2 =>
    intro t ht
    simp only [Sub, List.mem_cons, List.mem_append] at ht
    rcases ht with rfl | h | h
    · exact List.prefix_refl _
    · exact (List.prefix_append anc [n]).trans (ih1 t h)
    · exact ih2 t h

theorem Sub_source :
    ∀ (anc : List String) (m : List (String × TreeNode)),
    ∀ t ∈ Sub anc m,
      (t.1 = anc ∧ (t.2.1, t.2.2) ∈ m) ∨
      (∃ e ∈ m, anc ++ [e.2.name] <+: t.1) := by
  intro anc m
  induction anc, m using Sub.induct with
  | case1 anc =>
    intro t ht
    simp [Sub] at ht
  | case2 anc k n p st f cs rest ih1 ih2 =>
    intro t ht
    simp only [Sub, List.mem_cons, List.mem_append] at ht
    rcases ht with rfl | h | h
    · exact Or.inl ⟨rfl, List.mem_cons_self _ _⟩
    · exact Or.inr ⟨(k, .mk n p st f cs), List.mem_cons_self _ _,
        Sub_chain_prefix _ _ t h⟩
    · rcases ih2 t h with ⟨heq, hmem⟩ | ⟨e, he, hpfx⟩
      · exact Or.inl ⟨heq, List.mem_cons_of_mem _ hmem⟩
      · exact Or.inr ⟨e, List.mem_cons_of_mem _ he, hpfx⟩

theorem Sub_inv (fs : List ChangedFile) :
    ∀ (anc : List String) (m : List (String × TreeNode)),
    (∀ e ∈ m, INV fs anc e) → (∀ x ∈ anc, SlashFree x) →
    ∀ t ∈ Sub anc m,
      INV fs t.1 (t.2.1, t.2.2) ∧ ∀ x ∈ t.1, SlashFree x := by
  intro anc m
  induction anc, m using Sub.induct with
  | case1 anc =>
    intro _ _ t ht
    simp [Sub] at ht
  | case2 anc k n p st f cs rest ih1 ih2 =>
    intro hm hanc t ht
    have hhead : INV fs anc (k, .mk n p st f cs) := hm _ (List.mem_cons_self _ _)
    simp only [Sub, List.mem_cons, List.mem_append] at ht
    rcases ht with rfl | h | h
    · exact ⟨hhead, hanc⟩
    · cases hhead with
      | intro hname hfree hpath hfile hfolder hnodup hch =>
        have hnk : n = k := hname
        refine ih1 ?_ ?_ t h
        · intro e he
          rw [hnk]
          exact hch e he
        · intro x hx
          rcases List.mem_append.mp hx with hx | hx
          · exact hanc x hx
          · rw [List.mem_singleton.mp hx, hnk]
            exact hfree
    · exact ih2 (fun e he => hm e (List.mem_cons_of_mem _ he)) hanc t h

theorem INV_name_eq_key (fs : List ChangedFile) (anc : List String)
    (e : String × TreeNode) (h : INV fs anc e) : e.2.name = e.1 := by
  obtain ⟨k, n⟩ := e
  cases h with
  | intro hname _ _ _ _ _ _ => exact hname

theorem Sub_unique (fs : List ChangedFile) :
    ∀ (anc : List String) (m : List (String × TreeNode)),
    (∀ e ∈ m, INV fs anc e) → ((m.map Prod.fst).Nodup) →
    ∀ t₁ ∈ Sub anc m, ∀ t₂ ∈ Sub anc m,
      t₁.1 = t₂.1 → t₁.2.1 = t₂.2.1 → t₁ = t₂ := by
  intro anc m
  induction anc, m using Sub.induct with
  | case1 anc =>
    intro _ _ t₁ ht₁
    simp [Sub] at ht₁
  | case2 anc k n p st f cs rest ih1 ih2 =>
    intro hm hnodup t₁ ht₁ t₂ ht₂ hchain hkey
    have hhead : INV fs anc (k, .mk n p st f cs) := hm _ (List.mem_cons_self _ _)
    have hn2 : (k :: rest.map Prod.fst).Nodup := by simpa using hnodup
    have hknotin : k ∉ rest.map Prod.fst := (List.nodup_cons.mp hn2).1
    have hresttail : (rest.map Prod.fst).Nodup := (List.nodup_cons.mp hn2).2
    have hmrest : ∀ e ∈ rest, INV fs anc e := fun e he =>
      hm e (List.mem_cons_of_mem _ he)
    cases hhead with
    | intro hname hfree hpath hfile hfolder hnodupc hch =>
    have hnk : n = k := hname
    have hcs : ∀ e ∈ cs, INV fs (anc ++ [n]) e := by
      intro e he
      rw [hnk]
      exact hch e he
    have hcsnodup : (cs.map Prod.fst).Nodup := hnodupc
    -- a head entry cannot share its chain with an entry below the head node
    have hAB : ∀ t ∈ Sub (anc ++ [n]) cs, t.1 ≠ anc := by
      intro t ht heq
      have hpfx := Sub_chain_prefix _ _ t ht
      have := hpfx.length_le
      rw [heq] at this
      simp at this
    -- an entry of the rest with chain `anc` is a direct entry of the rest
    have hCdirect : ∀ t ∈ Sub anc rest, t.1 = anc → (t.2.1, t.2.2) ∈ rest := by
      intro t ht heq
      rcases Sub_source _ _ t ht with ⟨_, hmem⟩ | ⟨e, _, hpfx⟩
      · exact hmem
      · have := hpfx.length_le
        rw [heq] at this
        simp at this
    -- an entry below the head node cannot coincide in chain with one of the rest
    have hBC : ∀ t₁ ∈ Sub (anc ++ [n]) cs, ∀ t₂ ∈ Sub anc rest,
        t₁.1 ≠ t₂.1 := by
      intro u hu v hv heq
      rcases Sub_source _ _ v hv with ⟨heqv, _⟩ | ⟨e, he, hpfx⟩
      · exact hAB u hu (heq.trans heqv)
      · have hpfx₁ : anc ++ [n] <+: v.1 := heq ▸ Sub_chain_prefix _ _ u hu
        have hsame : anc ++ [n] = anc ++ [e.2.name] := by
          rcases List.prefix_or_prefix_of_prefix hpfx₁ hpfx with h | h
          · exact h.eq_of_length (by simp)
          · exact (h.eq_of_length (by simp)).symm
        have hnm : n = e.2.name := by
          have := List.append_cancel_left hsame
          simpa using this
        have hek : e.2.name = e.1 := INV_name_eq_key fs anc e (hmrest e he)
        exact hknotin (by
          rw [← hnk, hnm, hek]
          exact List.mem_map_of_mem Prod.fst he)
    simp only [Sub, List.mem_cons, List.mem_append] at ht₁ ht₂
    rcases ht₁ with rfl | h₁ | h₁ <;> rcases ht₂ with h₂ | h₂ | h₂
    · exact h₂.symm
    · exact absurd (show t₂.1 = anc from hchain.symm) (hAB t₂ h₂)
    · -- head vs rest: keys must clash
      have hmem := hCdirect t₂ h₂ (show t₂.1 = anc from hchain.symm)
      have hk2 : t₂.2.1 ∈ rest.map Prod.fst := List.mem_map_of_mem Prod.fst hmem
      exact absurd (by rw [show k = t₂.2.1 from hkey]; exact hk2) hknotin
    · exact absurd (show t₁.1 = anc from by rw [hchain, h₂]) (hAB t₁ h₁)
    · exact ih1 hcs hcsnodup t₁ h₁ t₂ h₂ hchain hkey
    · exact absurd hchain (hBC t₁ h₁ t₂ h₂)
    · -- rest vs head
      have hmem := hCdirect t₁ h₁ (show t₁.1 = anc from by rw [hchain, h₂])
      have hk1 : t₁.2.1 ∈ rest.map Prod.fst := List.mem_map_of_mem Prod.fst hmem
      exact absurd (by rw [show k = t₁.2.1 from by rw [hkey, h₂]]; exact hk1)
        hknotin
    · exact absurd hchain.symm (hBC t₂ h₂ t₁ h₁)
    · exact ih2 hmrest hresttail t₁ h₁ t₂ h₂ hchain hkey

theorem statusesOf_append (fs gs : List ChangedFile) (p : String) :
    statusesOf (fs ++ gs) p = statusesOf fs p ++ statusesOf gs p := by
  unfold statusesOf
  rw [List.filter_append, List.map_append]

theorem lastStat_append_self (fs : List ChangedFile) (f : ChangedFile) :
    lastStat (fs ++ [f]) f.path = some f.status := by
  unfold lastStat
  rw [statusesOf_append]
  have h1 : statusesOf [f] f.path = [f.status] := by
    unfold statusesOf
    simp
  rw [h1, List.getLast?_concat]

theorem lastStat_append_ne (fs : List ChangedFile) (f : ChangedFile)
    (p : String) (h : p ≠ f.path) : lastStat (fs ++ [f]) p = lastStat fs p := by
  unfold lastStat
  rw [statusesOf_append]
  have h1 : statusesOf [f] p = [] := by
    unfold statusesOf
    rw [List.filter_cons]
    simp only [beq_iff_eq]
    rw [if_neg (fun hh : f.path = p => h hh.symm)]
    rfl
  rw [h1, List.append_nil]

theorem splitSlash_eq_of_path (anc : List String) (k : String) (s : String)
    (hanc : ∀ x ∈ anc, SlashFree x) (hfree : SlashFree k)
    (hpath : s = joinSlash (anc ++ [k])) :
    splitSlash s = anc ++ [k] := by
  rw [hpath]
  refine splitSlash_joinSlash _ (by simp) ?_
  intro x hx
  rcases List.mem_append.mp hx with hx | hx
  · exact hanc x hx
  · rw [List.mem_singleton.mp hx]
    exact hfree

/-- Appending one record keeps the invariant of every subtree whose own
chain does not lie on the inserted record's path. -/
theorem INV_append_of_not_prefix (fs : List ChangedFile) (f : ChangedFile)
    {anc : List String} {e : String × TreeNode} (h : INV fs anc e) :
    (∀ x ∈ anc, SlashFree x) → ¬ (anc ++ [e.1] <+: splitSlash f.path) →
    INV (fs ++ [f]) anc e := by
  induction h with
  | @intro anc k n hname hfree hpath hfile hfolder hnodup hch ih =>
    intro hanc hnpfx
    have hsplit : splitSlash n.path = anc ++ [k] :=
      splitSlash_eq_of_path anc k n.path hanc hfree hpath
    refine INV.intro hname hfree hpath ?_ ?_ hnodup ?_
    · intro hf
      obtain ⟨hst, hmem⟩ := hfile hf
      have hne : n.path ≠ f.path := by
        intro hEq
        apply hnpfx
        rw [show ((k, n) : String × TreeNode).1 = k from rfl, ← hsplit, ← hEq]
      refine ⟨by rw [lastStat_append_ne fs f n.path hne]; exact hst, ?_⟩
      simpa using Or.inl hmem
    · intro hf
      obtain ⟨hst, g, hg, hpfx, hlt⟩ := hfolder hf
      exact ⟨hst, g, List.mem_append_left _ hg, hpfx, hlt⟩
    · intro e' he'
      refine ih e' he' ?_ ?_
      · intro x hx
        rcases List.mem_append.mp hx with hx | hx
        · exact hanc x hx
        · rw [List.mem_singleton.mp hx]
          exact hfree
      · intro hp
        exact hnpfx ((List.prefix_append (anc ++ [k]) [e'.1]).trans hp)

theorem mapGet_mem (m : List (String × TreeNode)) (p : String) (c : TreeNode)
    (h : mapGet m p = some c) : (p, c) ∈ m := by
  unfold mapGet at h
  cases hf : m.find? (fun e => e.1 == p) with
  | none => rw [hf] at h; cases h
  | some e =>
    rw [hf] at h
    obtain ⟨e1, e2⟩ := e
    have hmem : (e1, e2) ∈ m := List.mem_of_find?_eq_some hf
    have hbeq := @List.find?_some _ (fun e => e.1 == p) (e1, e2) m hf
    have hk : e1 = p := by simpa using hbeq
    have hc : e2 = c := by simpa using h
    rw [← hk, ← hc]
    exact hmem

theorem singleton_prefix_cons {a b : String} {l : List String}
    (h : [a] <+: b :: l) : a = b :=
  (List.cons_prefix_cons.mp h).1

/-- Inserting one record's remaining segments into a well-formed children
map yields a children map that is well-formed for the extended record
list. -/
theorem INV_insert (fs : List ChangedFile) (f : ChangedFile) :
    ∀ (parts anc : List String) (m : List (String × TreeNode)),
    parts ≠ [] →
    anc ++ parts = splitSlash f.path →
    (∀ x ∈ anc, SlashFree x) →
    (m.map Prod.fst).Nodup →
    (∀ e ∈ m, INV fs anc e) →
    ((insertParts anc f.path f.status parts m).map Prod.fst).Nodup ∧
    ∀ e ∈ insertParts anc f.path f.status parts m, INV (fs ++ [f]) anc e := by
  intro parts
  induction parts with
  | nil =>
    intro anc m hne
    exact absurd rfl hne
  | cons p rest ih =>
    intro anc m _ hsp hanc hnodup hm
    have hfreep : SlashFree p := by
      apply slashFree_of_mem_splitSlash f.path
      rw [← hsp]
      exact List.mem_append_right anc (List.mem_cons_self _ _)
    have hancp : ∀ x ∈ anc ++ [p], SlashFree x := by
      intro x hx
      rcases List.mem_append.mp hx with hx | hx
      · exact hanc x hx
      · rw [List.mem_singleton.mp hx]
        exact hfreep
    cases rest with
    | nil =>
      rw [show insertParts anc f.path f.status [p] m =
        mapSet m p (mkFile p f.path f.status) from rfl]
      have hjoin : f.path = joinSlash (anc ++ [p]) := by
        rw [hsp, joinSlash_splitSlash]
      refine ⟨mapSet_keys_nodup m p _ hnodup, ?_⟩
      intro e he
      rcases mem_mapSet m p _ e he with rfl | ⟨hm', hne'⟩
      · refine INV.intro rfl hfreep (by simpa [mkFile] using hjoin) ?_ ?_
          (by simp [mkFile]) ?_
        · intro _
          constructor
          · rw [show (mkFile p f.path f.status).status = some f.status from rfl,
              show (mkFile p f.path f.status).path = f.path from rfl,
              lastStat_append_self]
          · rw [show (mkFile p f.path f.status).path = f.path from rfl]
            simp
        · intro hfalse
          simp [mkFile] at hfalse
        · intro e' he'
          simp [mkFile] at he'
      · refine INV_append_of_not_prefix fs f (hm e hm') hanc ?_
        intro hp
        rw [← hsp] at hp
        have h1 : [e.1] <+: [p] := (List.prefix_append_right_inj anc).mp hp
        exact hne' (singleton_prefix_cons h1)
    | cons q rs =>
      rw [show insertParts anc f.path f.status (p :: q :: rs) m =
        mapSet m p
          (((mapGet m p).getD (mkFolder p (joinSlash (anc ++ [p])))).setChildren
            (insertParts (anc ++ [p]) f.path f.status (q :: rs)
              ((mapGet m p).getD
                (mkFolder p (joinSlash (anc ++ [p])))).children)) from rfl]
      set child := (mapGet m p).getD (mkFolder p (joinSlash (anc ++ [p])))
        with hchilddef
      have hsp' : (anc ++ [p]) ++ (q :: rs) = splitSlash f.path := by
        rw [← hsp]
        simp
      -- the facts we need about the walked-through child, whether it
      -- already existed or was freshly created as a folder
      have hchfacts : child.name = p ∧
          child.path = joinSlash (anc ++ [p]) ∧
          (child.children.map Prod.fst).Nodup ∧
          (∀ e ∈ child.children, INV fs (anc ++ [p]) e) ∧
          (child.isFile = true → child.status = lastStat fs child.path ∧
            child.path ∈ fs.map ChangedFile.path) ∧
          (child.isFile = false → child.status = none) := by
        cases hg : mapGet m p with
        | none =>
          rw [hchilddef, hg]
          refine ⟨rfl, rfl, by simp [mkFolder], ?_, ?_, fun _ => rfl⟩
          · intro e he
            simp [mkFolder] at he
          · intro hfalse
            simp [mkFolder] at hfalse
        | some c =>
          have hcmem : (p, c) ∈ m := mapGet_mem m p c hg
          have hcinv : INV fs anc (p, c) := hm _ hcmem
          rw [hchilddef, hg]
          cases hcinv with
          | intro hname hfree hpath hfile hfolder hnodupc hch =>
            exact ⟨hname, hpath, hnodupc, hch, hfile,
              fun hf => (hfolder hf).1⟩
      obtain ⟨hcname, hcpath, hcnodup, hcinv, hcfile, hcfolder⟩ := hchfacts
      obtain ⟨hnodup', hinv'⟩ :=
        ih (anc ++ [p]) child.children (by simp) hsp' hancp hcnodup hcinv
      have hclen : child.path ≠ f.path := by
        intro hEq
        have h1 : splitSlash child.path = anc ++ [p] :=
          splitSlash_eq_of_path anc p child.path hanc hfreep hcpath
        have h2 : splitSlash f.path = anc ++ p :: q :: rs := hsp.symm
        rw [hEq, h2] at h1
        have := congrArg List.length h1
        simp only [List.length_append, List.length_cons,
          List.length_nil] at this
        omega
      refine ⟨mapSet_keys_nodup m p _ hnodup, ?_⟩
      intro e he
      rcases mem_mapSet m p _ e he with rfl | ⟨hm', hne'⟩
      · refine INV.intro (by simpa using hcname) hfreep
          (by simpa using hcpath) ?_ ?_ (by simpa using hnodup') ?_
        · intro hf
          simp only [TreeNode.isFile_setChildren] at hf
          obtain ⟨hst, hmem⟩ := hcfile hf
          refine ⟨?_, ?_⟩
          · rw [TreeNode.status_setChildren, TreeNode.path_setChildren,
              lastStat_append_ne fs f child.path hclen]
            exact hst
          · rw [TreeNode.path_setChildren]
            simpa using Or.inl hmem
        · intro hf
          simp only [TreeNode.isFile_setChildren] at hf
          refine ⟨by rw [TreeNode.status_setChildren]; exact hcfolder hf,
            f, by simp, ?_, ?_⟩
          · rw [TreeNode.path_setChildren]
            rw [splitSlash_eq_of_path anc p child.path hanc hfreep hcpath,
              ← hsp]
            exact ⟨q :: rs, by simp⟩
          · rw [TreeNode.path_setChildren,
              splitSlash_eq_of_path anc p child.path hanc hfreep hcpath,
              ← hsp]
            simp
        · intro e' he'
          rw [TreeNode.children_setChildren] at he'
          exact hinv' e' he'
      · refine INV_append_of_not_prefix fs f (hm e hm') hanc ?_
        intro hp
        rw [← hsp] at hp
        have h1 : [e.1] <+: p :: q :: rs :=
          (List.prefix_append_right_inj anc).mp hp
        exact hne' (singleton_prefix_cons h1)

/-- The root-level invariant: duplicate-free keys and `INV` for every
child entry. -/
def RootInv (fs : List ChangedFile) (t : TreeNode) : Prop :=
  (t.children.map Prod.fst).Nodup ∧ ∀ e ∈ t.children, INV fs [] e

theorem RootInv_addFileToTree (fs : List ChangedFile) (f : ChangedFile)
    (t : TreeNode) (h : RootInv fs t) :
    RootInv (fs ++ [f]) (addFileToTree t f.path f.status) := by
  obtain ⟨h1, h2⟩ := INV_insert fs f (splitSlash f.path) [] t.children
    (splitSlash_ne_nil f.path) (by simp) (by simp) h.1 h.2
  unfold addFileToTree RootInv
  rw [TreeNode.children_setChildren]
  exact ⟨h1, h2⟩

theorem RootInv_fold (files : List ChangedFile) :
    ∀ (fs : List ChangedFile) (t : TreeNode), RootInv fs t →
    RootInv (fs ++ files)
      (files.foldl (fun t f => addFileToTree t f.path f.status) t) := by
  induction files with
  | nil =>
    intro fs t h
    simpa using h
  | cons f rest ih =>
    intro fs t h
    have h2 := ih (fs ++ [f]) _ (RootInv_addFileToTree fs f t h)
    rw [List.append_assoc] at h2
    simpa using h2

theorem RootInv_buildTree (files : List ChangedFile) :
    RootInv files (buildTreeFromChangedFiles files) := by
  have h := RootInv_fold files [] emptyRoot
    ⟨by simp [emptyRoot], by simp [emptyRoot]⟩
  simpa [buildTreeFromChangedFiles] using h

theorem INV_out (fs : List ChangedFile) (anc : List String)
    (e : String × TreeNode) (h : INV fs anc e) :
    e.2.name = e.1 ∧ SlashFree e.1 ∧
    e.2.path = joinSlash (anc ++ [e.1]) ∧
    (e.2.isFile = true → e.2.status = lastStat fs e.2.path ∧
      e.2.path ∈ fs.map ChangedFile.path) ∧
    (e.2.isFile = false → e.2.status = none ∧
      ∃ g ∈ fs, splitSlash e.2.path <+: splitSlash g.path ∧
        (splitSlash e.2.path).length < (splitSlash g.path).length) ∧
    (e.2.children.map Prod.fst).Nodup ∧
    (∀ e' ∈ e.2.children, INV fs (anc ++ [e.1]) e') := by
  obtain ⟨k, n⟩ := e
  cases h with
  | intro h1 h2 h3 h4 h5 h6 h7 => exact ⟨h1, h2, h3, h4, h5, h6, h7⟩

/-- Every traversal entry of a materialized hierarchical tree satisfies
the invariant, with a slash-free ancestor chain. -/
theorem hier_node_facts (files : List ChangedFile) :
    ∀ t ∈ Sub [] (buildTreeFromChangedFiles files).children,
      INV files t.1 (t.2.1, t.2.2) ∧ ∀ x ∈ t.1, SlashFree x := by
  intro t ht
  exact Sub_inv files [] _ (RootInv_buildTree files).2 (by simp) t ht

theorem names_eq_keys (fs : List ChangedFile) (anc : List String)
    (m : List (String × TreeNode)) (h : ∀ e ∈ m, INV fs anc e) :
    m.map (fun e => e.2.name) = m.map Prod.fst :=
  List.map_congr_left (fun e he => INV_name_eq_key fs anc e (h e he))

/-! ## Claim C3: leaf paths reconstruct record paths; sibling names unique -/

/-- **C3**: for every non-empty record list materialized hierarchically,
every leaf node's full path — the `'/'`-join of its ancestor names and its
own name — equals its stored path, which is the path of a record of the
list; and no two children of any node (the root included) share a name. -/
theorem c3_hierarchical_leaf_paths (files : List ChangedFile)
    (_hne : files ≠ []) :
    List.Forall
      (fun t => (t.2.2.isFile = true →
        joinSlash (t.1 ++ [t.2.2.name]) = t.2.2.path ∧
        t.2.2.path ∈ files.map ChangedFile.path) ∧
      (t.2.2.children.map (fun e => e.2.name)).Nodup)
      (Sub [] (buildTreeFromChangedFiles files).children) ∧
    ((buildTreeFromChangedFiles files).children.map
      (fun e => e.2.name)).Nodup := by
  constructor
  · rw [List.forall_iff_forall_mem]
    intro t ht
    obtain ⟨hinv, _⟩ := hier_node_facts files t ht
    obtain ⟨hname, _, hpath, hfile, _, hnodup, hch⟩ :=
      INV_out files t.1 (t.2.1, t.2.2) hinv
    refine ⟨?_, ?_⟩
    · intro hf
      obtain ⟨_, hmem⟩ := hfile hf
      exact ⟨by rw [hname, ← hpath], hmem⟩
    · rw [names_eq_keys files (t.1 ++ [t.2.1]) _ hch]
      exact hnodup
  · rw [names_eq_keys files [] _ (RootInv_buildTree files).2]
    exact (RootInv_buildTree files).1

/-- **C3 witness** at the spec's scenario records. -/
theorem c3_hierarchical_leaf_paths_witness :
    List.Forall
      (fun t => (t.2.2.isFile = true →
        joinSlash (t.1 ++ [t.2.2.name]) = t.2.2.path ∧
        t.2.2.path ∈ List.map ChangedFile.path
          [⟨"src/a.ts", "M"⟩, ⟨"src/b.ts", "A"⟩, ⟨"README.md", "D"⟩]) ∧
      (t.2.2.children.map (fun e => e.2.name)).Nodup)
      (Sub [] (buildTreeFromChangedFiles
        [⟨"src/a.ts", "M"⟩, ⟨"src/b.ts", "A"⟩, ⟨"README.md", "D"⟩]).children) ∧
    ((buildTreeFromChangedFiles
      [⟨"src/a.ts", "M"⟩, ⟨"src/b.ts", "A"⟩, ⟨"README.md", "D"⟩]).children.map
      (fun e => e.2.name)).Nodup :=
  c3_hierarchical_leaf_paths
    [⟨"src/a.ts", "M"⟩, ⟨"src/b.ts", "A"⟩, ⟨"README.md", "D"⟩] (by decide)

/-! ## Claim C4: leaves are exactly the file-inserted nodes -/

/-- **C4**: in every hierarchically materialized tree, a node is a leaf
(`isFile = true`) precisely when it was inserted as the last segment of
some record's path — it then carries that record's full path and status —
while every other node was created for an intermediate path segment: it is
a folder carrying no status whose path is a proper segment-prefix of some
record's path. -/
theorem c4_leaf_nodes_iff_file_insert (files : List ChangedFile) :
    List.Forall
      (fun t =>
        (t.2.2.isFile = true →
          ∃ f ∈ files, t.2.2.path = f.path ∧ t.2.2.status = some f.status) ∧
        (t.2.2.isFile = false → t.2.2.status = none ∧
          ∃ f ∈ files, splitSlash t.2.2.path <+: splitSlash f.path ∧
            (splitSlash t.2.2.path).length < (splitSlash f.path).length))
      (Sub [] (buildTreeFromChangedFiles files).children) := by
  rw [List.forall_iff_forall_mem]
  intro t ht
  obtain ⟨hinv, _⟩ := hier_node_facts files t ht
  obtain ⟨_, _, _, hfile, hfolder, _, _⟩ :=
    INV_out files t.1 (t.2.1, t.2.2) hinv
  refine ⟨?_, hfolder⟩
  intro hf
  obtain ⟨hst, hmem⟩ := hfile hf
  have hsome := lastStat_isSome_of_mem files t.2.2.path hmem
  rcases Option.isSome_iff_exists.mp hsome with ⟨s, hs⟩
  rcases lastStat_mem files t.2.2.path s hs with ⟨f, hfm, hfp, hfs⟩
  exact ⟨f, hfm, hfp.symm, by rw [hst, hs, hfs]⟩

/-! ## Claim C9: node names versus last path segments -/

/-- **C9 counterexample**: in Flat mode a multi-segment record path yields
a node whose name is the whole path (`"src/a.ts"`), not the last
`'/'`-separated segment (`"a.ts"`), refuting the claim for "either mode". -/
theorem c9_counterexample_flat_name_not_last_segment :
    ((buildFlatListFromChangedFiles [⟨"src/a.ts", "M"⟩]).children.map
      (fun e => e.2.name)) = ["src/a.ts"] ∧
    ((buildFlatListFromChangedFiles [⟨"src/a.ts", "M"⟩]).children.map
      (fun e => lastSeg e.2.path)) = ["a.ts"] ∧
    ("src/a.ts" : String) ≠ "a.ts" := by
  refine ⟨rfl, rfl, by decide⟩

/-- **C9 as amended**: in Hierarchical mode every node's name is the last
`'/'`-separated segment of its full path; in Flat mode a node's name is
instead the record's whole path (which coincides with the last segment
only for single-segment paths). -/
theorem c9_amended_names (files : List ChangedFile) :
    List.Forall (fun t => t.2.2.name = lastSeg t.2.2.path)
      (Sub [] (buildTreeFromChangedFiles files).children) ∧
    List.Forall (fun e => e.2.name = e.2.path)
      ((buildFlatListFromChangedFiles files).children) := by
  constructor
  · rw [List.forall_iff_forall_mem]
    intro t ht
    obtain ⟨hinv, hancfree⟩ := hier_node_facts files t ht
    obtain ⟨hname, hfree, hpath, _, _, _, _⟩ :=
      INV_out files t.1 (t.2.1, t.2.2) hinv
    rw [hname, hpath, lastSeg_joinSlash_append]
    intro x hx
    rcases List.mem_append.mp hx with hx | hx
    · exact hancfree x hx
    · rw [List.mem_singleton.mp hx]
      exact hfree
  · rw [List.forall_iff_forall_mem]
    intro e he
    unfold buildFlatListFromChangedFiles at he
    rw [TreeNode.children_setChildren] at he
    rcases flatFold_entry files [] e he with ⟨_, hshape⟩ | ⟨hm, _⟩
    · rw [hshape]
      rfl
    · cases hm

/-! ## Claim C10: duplicate record paths -/

/-- **C10 counterexample**: with records `[a/b:M, a/b:A, a:D]` — path `a/b`
occurring twice — Hierarchical materialization produces NO node at all for
path `a/b` (the later record `a` overwrites the folder `a` and discards its
subtree), refuting "exactly one node for that path"; and appending a
further record `a/b/c:X` recreates `a/b` as a status-less FOLDER, so a
node at a duplicated path need not carry any record's status. -/
theorem c10_counterexample_duplicate_paths :
    buildTreeFromChangedFiles [⟨"a/b", "M"⟩, ⟨"a/b", "A"⟩, ⟨"a", "D"⟩] =
      .mk "" "" none false [("a", .mk "a" "a" (some "D") true [])] ∧
    List.Forall (fun t => t.2.2.path ≠ "a/b")
      (Sub [] (buildTreeFromChangedFiles
        [⟨"a/b", "M"⟩, ⟨"a/b", "A"⟩, ⟨"a", "D"⟩]).children) ∧
    buildTreeFromChangedFiles
        [⟨"a/b", "M"⟩, ⟨"a/b", "A"⟩, ⟨"a", "D"⟩, ⟨"a/b/c", "X"⟩] =
      .mk "" "" none false [("a", .mk "a" "a" (some "D") true
        [("b", .mk "b" "a/b" none false
          [("c", .mk "c" "a/b/c" (some "X") true [])])])] ∧
    List.Forall (fun t => t.2.2.path = "a/b" →
        t.2.2.isFile = false ∧ t.2.2.status = none)
      (Sub [] (buildTreeFromChangedFiles
        [⟨"a/b", "M"⟩, ⟨"a/b", "A"⟩, ⟨"a", "D"⟩, ⟨"a/b/c", "X"⟩]).children) := by
  refine ⟨rfl, ?_, rfl, ?_⟩
  · rw [show buildTreeFromChangedFiles [⟨"a/b", "M"⟩, ⟨"a/b", "A"⟩, ⟨"a", "D"⟩] =
      .mk "" "" none false [("a", .mk "a" "a" (some "D") true [])] from rfl]
    rw [TreeNode.children_mk]
    simp only [Sub]
    decide
  · rw [show buildTreeFromChangedFiles
        [⟨"a/b", "M"⟩, ⟨"a/b", "A"⟩, ⟨"a", "D"⟩, ⟨"a/b/c", "X"⟩] =
      .mk "" "" none false [("a", .mk "a" "a" (some "D") true
        [("b", .mk "b" "a/b" none false
          [("c", .mk "c" "a/b/c" (some "X") true [])])])] from rfl]
    rw [TreeNode.children_mk]
    simp only [Sub]
    decide

/-- **C10 as amended**: for a record list in which some path `p` occurs two
or more times, materialization produces AT MOST one node with path `p` in
Hierarchical mode and exactly one in Flat mode; any node at `p` that is a
file carries the status of the last record with path `p` in list order
(in Flat mode the unique node always does). -/
theorem c10_amended_last_record_wins (files : List ChangedFile) (p : String)
    (hdup : 2 ≤ (files.filter (fun f => f.path == p)).length) :
    (∀ t₁ ∈ Sub [] (buildTreeFromChangedFiles files).children,
     ∀ t₂ ∈ Sub [] (buildTreeFromChangedFiles files).children,
      t₁.2.2.path = p → t₂.2.2.path = p → t₁ = t₂) ∧
    List.Forall (fun t => t.2.2.path = p → t.2.2.isFile = true →
        t.2.2.status = lastStat files p)
      (Sub [] (buildTreeFromChangedFiles files).children) ∧
    p ∈ (buildFlatListFromChangedFiles files).children.map Prod.fst ∧
    List.Forall (fun e => e.1 = p →
        e.2.isFile = true ∧ e.2.status = lastStat files p)
      ((buildFlatListFromChangedFiles files).children) := by
  have hpmem : p ∈ files.map ChangedFile.path := by
    have hne : files.filter (fun f => f.path == p) ≠ [] := by
      intro h
      rw [h] at hdup
      simp at hdup
    rcases List.exists_mem_of_ne_nil _ hne with ⟨f, hf⟩
    obtain ⟨hfm, hfp⟩ := List.mem_filter.mp hf
    exact List.mem_map.mpr ⟨f, hfm, beq_iff_eq.mp hfp⟩
  refine ⟨?_, ?_, ?_, ?_⟩
  · intro t₁ ht₁ t₂ ht₂ hp₁ hp₂
    obtain ⟨hinv₁, hfree₁⟩ := hier_node_facts files t₁ ht₁
    obtain ⟨hinv₂, hfree₂⟩ := hier_node_facts files t₂ ht₂
    obtain ⟨_, hkfree₁, hpath₁, _, _, _, _⟩ := INV_out files t₁.1 _ hinv₁
    obtain ⟨_, hkfree₂, hpath₂, _, _, _, _⟩ := INV_out files t₂.1 _ hinv₂
    have hsp₁ : splitSlash p = t₁.1 ++ [t₁.2.1] :=
      hp₁ ▸ splitSlash_eq_of_path t₁.1 t₁.2.1 t₁.2.2.path hfree₁ hkfree₁ hpath₁
    have hsp₂ : splitSlash p = t₂.1 ++ [t₂.2.1] :=
      hp₂ ▸ splitSlash_eq_of_path t₂.1 t₂.2.1 t₂.2.2.path hfree₂ hkfree₂ hpath₂
    have heq : t₁.1 ++ [t₁.2.1] = t₂.1 ++ [t₂.2.1] := by
      rw [← hsp₁, hsp₂]
    obtain ⟨hc, hk⟩ := List.append_inj' heq (by simp)
    exact Sub_unique files [] _ (RootInv_buildTree files).2
      (RootInv_buildTree files).1 t₁ ht₁ t₂ ht₂ hc
      (by simpa using hk)
  · rw [List.forall_iff_forall_mem]
    intro t ht hp hf
    obtain ⟨hinv, _⟩ := hier_node_facts files t ht
    obtain ⟨_, _, _, hfile, _, _, _⟩ := INV_out files t.1 _ hinv
    rw [(hfile hf).1, hp]
  · unfold buildFlatListFromChangedFiles
    rw [TreeNode.children_setChildren, flatFold_keys]
    simp only [List.map_nil, List.not_mem_nil, false_or]
    exact hpmem
  · rw [List.forall_iff_forall_mem]
    intro e he hp
    unfold buildFlatListFromChangedFiles at he
    rw [TreeNode.children_setChildren] at he
    rcases flatFold_entry files [] e he with ⟨hmem, hshape⟩ | ⟨hm, _⟩
    · have hsome := lastStat_isSome_of_mem files e.1 hmem
      rcases Option.isSome_iff_exists.mp hsome with ⟨s, hs⟩
      refine ⟨by rw [hshape]; rfl, ?_⟩
      rw [hshape, ← hp]
      show some ((lastStat files e.1).getD "") = lastStat files e.1
      rw [hs]
      rfl
    · cases hm

/-- **C10 witness** at a concrete duplicated path. -/
theorem c10_amended_last_record_wins_witness :
    (∀ t₁ ∈ Sub [] (buildTreeFromChangedFiles
        [⟨"x", "M"⟩, ⟨"x", "A"⟩]).children,
     ∀ t₂ ∈ Sub [] (buildTreeFromChangedFiles
        [⟨"x", "M"⟩, ⟨"x", "A"⟩]).children,
      t₁.2.2.path = "x" → t₂.2.2.path = "x" → t₁ = t₂) ∧
    List.Forall (fun t => t.2.2.path = "x" → t.2.2.isFile = true →
        t.2.2.status = lastStat [⟨"x", "M"⟩, ⟨"x", "A"⟩] "x")
      (Sub [] (buildTreeFromChangedFiles
        [⟨"x", "M"⟩, ⟨"x", "A"⟩]).children) ∧
    "x" ∈ (buildFlatListFromChangedFiles
        [⟨"x", "M"⟩, ⟨"x", "A"⟩]).children.map Prod.fst ∧
    List.Forall (fun e => e.1 = "x" →
        e.2.isFile = true ∧ e.2.status = lastStat [⟨"x", "M"⟩, ⟨"x", "A"⟩] "x")
      ((buildFlatListFromChangedFiles [⟨"x", "M"⟩, ⟨"x", "A"⟩]).children) :=
  c10_amended_last_record_wins [⟨"x", "M"⟩, ⟨"x", "A"⟩] "x" (by decide)

/-! ## Claim C6: zero-changes fallback -/

theorem buildFullWorkspaceTree_eq (files : List String) :
    buildFullWorkspaceTree files =
      buildTreeFromChangedFiles (files.map (fun p => ⟨p, ""⟩)) := by
  unfold buildFullWorkspaceTree buildTreeFromChangedFiles
  rw [List.foldl_map]

theorem fullTree_statusless (files : List String) :
    List.Forall (fun t => t.2.2.status = none ∨ t.2.2.status = some "")
      (Sub [] (buildTreeFromChangedFiles
        (files.map (fun p => ⟨p, ""⟩))).children) := by
  rw [List.forall_iff_forall_mem]
  intro t ht
  obtain ⟨hinv, _⟩ := hier_node_facts _ t ht
  obtain ⟨_, _, _, hfile, hfolder, _, _⟩ := INV_out _ t.1 _ hinv
  cases hfis : t.2.2.isFile
  · exact Or.inl (hfolder hfis).1
  · obtain ⟨hst, hmem⟩ := hfile hfis
    have hsome := lastStat_isSome_of_mem _ t.2.2.path hmem
    rcases Option.isSome_iff_exists.mp hsome with ⟨s, hs⟩
    rcases lastStat_mem _ t.2.2.path s hs with ⟨f, hfm, _, hfs⟩
    rcases List.mem_map.mp hfm with ⟨q, _, hq⟩
    refine Or.inr ?_
    rw [hst, hs, ← hfs, ← hq]

/-- **C6**: when the change list is empty, Hierarchical materialization
yields exactly the tree obtained by materializing the full tracked-file
list of the comparison branch as status-wise-empty records — every node of
it status-less (`none` for folders, the empty string for files) — while
Flat materialization yields the empty root with no children. -/
theorem c6_zero_changes_fallback (w : GitWorld) (b d ls : String)
    (hrepo : w.isRepo = true)
    (hdet : detectMainBranch w = .ok b)
    (hdiff : w.diffOutput b = .ok d)
    (hempty : outputLines d = [])
    (hls : w.lsTreeOutput b = .ok ls) :
    (loadChangedFiles w true).1 =
      buildTreeFromChangedFiles ((outputLines ls).map (fun p => ⟨p, ""⟩)) ∧
    List.Forall (fun t => t.2.2.status = none ∨ t.2.2.status = some "")
      (Sub [] (loadChangedFiles w true).1.children) ∧
    (loadChangedFiles w false).1 = emptyRoot ∧
    (loadChangedFiles w false).1.children = [] := by
  have hload : ∀ mode : Bool, loadChangedFiles w mode =
      (if mode then (buildFullWorkspaceTree (outputLines ls), none)
       else (emptyRoot, none)) := by
    intro mode
    simp only [loadChangedFiles, hrepo, hdet, hdiff, hls, hempty, if_true,
      List.isEmpty_nil]
  refine ⟨?_, ?_, ?_, ?_⟩
  · rw [hload true, if_pos rfl, buildFullWorkspaceTree_eq]
  · rw [hload true, if_pos rfl]
    show List.Forall _ (Sub [] (buildFullWorkspaceTree (outputLines ls)).children)
    rw [buildFullWorkspaceTree_eq]
    exact fullTree_statusless (outputLines ls)
  · rw [hload false]
    rfl
  · rw [hload false]
    rfl

/-- **C6 witness** at a concrete repository world with no changes and two
tracked files. -/
theorem c6_zero_changes_fallback_witness :
    (loadChangedFiles
        ⟨true, true, none, fun _ => true, none,
          fun _ => .ok "", fun _ => .ok "pkg/a.ts\npkg/b.ts"⟩ true).1 =
      buildTreeFromChangedFiles
        ((outputLines "pkg/a.ts\npkg/b.ts").map (fun p => ⟨p, ""⟩)) ∧
    List.Forall (fun t => t.2.2.status = none ∨ t.2.2.status = some "")
      (Sub [] (loadChangedFiles
        ⟨true, true, none, fun _ => true, none,
          fun _ => .ok "", fun _ => .ok "pkg/a.ts\npkg/b.ts"⟩ true).1.children) ∧
    (loadChangedFiles
        ⟨true, true, none, fun _ => true, none,
          fun _ => .ok "", fun _ => .ok "pkg/a.ts\npkg/b.ts"⟩ false).1 =
      emptyRoot ∧
    (loadChangedFiles
        ⟨true, true, none, fun _ => true, none,
          fun _ => .ok "", fun _ => .ok "pkg/a.ts\npkg/b.ts"⟩ false).1.children =
      [] :=
  c6_zero_changes_fallback
    ⟨true, true, none, fun _ => true, none,
      fun _ => .ok "", fun _ => .ok "pkg/a.ts\npkg/b.ts"⟩
    "master" "" "pkg/a.ts\npkg/b.ts" rfl rfl rfl (by decide) rfl

/-! ## Claim C8: failures are caught and resolve to an empty model -/

/-- **C8**: whatever fails during a reload, the failure is caught at the
top of `loadChangedFiles` and the resulting data model is the empty root,
never a partially built tree; in particular a repository with zero commits
fails with `NoCommitsError` and produces the empty model. -/
theorem c8_reload_failures_caught (w : GitWorld) (mode : Bool) :
    ((loadChangedFiles w mode).2.isSome = true →
      (loadChangedFiles w mode).1 = emptyRoot) ∧
    (w.isRepo = true → w.headExists = false →
      loadChangedFiles w mode = (emptyRoot, some GitError.noCommits)) := by
  have hcases : (loadChangedFiles w mode).1 = emptyRoot ∨
      (loadChangedFiles w mode).2 = none := by
    unfold loadChangedFiles
    split
    · split
      · exact Or.inl rfl
      · split
        · exact Or.inl rfl
        · dsimp only
          split
          · split
            · split
              · exact Or.inl rfl
              · exact Or.inr rfl
            · exact Or.inr rfl
          · split
            · exact Or.inr rfl
            · exact Or.inr rfl
    · exact Or.inl rfl
  constructor
  · intro hsome
    rcases hcases with h | h
    · exact h
    · rw [h] at hsome
      cases hsome
  · intro hrepo hhead
    have hdet : detectMainBranch w = .error .noCommits := by
      unfold detectMainBranch
      rw [hhead]
      rfl
    unfold loadChangedFiles
    rw [hrepo, if_pos rfl, hdet]

end GitDeltaTree
